import Mathlib

/-!
Verification development for the Voice-Search backend repository.

The repository's core logic (shared verbatim by `speech.py`, `voice.py` and
`voiceapi.py`) is the intent-phrase cleaning pipeline
`clean_text_remove_intent_phrases`, the phrase-store CRUD operations of
`voiceapi.py`, the transcript log `save_transcription`, and the accuracy
evaluator of `voice.py`.

Strings are modelled as lists of characters.  The Python `re` module
constructs used by the source (`\b` word boundaries, literal case-insensitive
matching after `re.escape`, `re.sub` left-to-right non-overlapping
substitution, `\s+` collapsing) are modelled over the ASCII character classes
(`\w` = letters, digits, underscore; `\s` = space, tab, newline, carriage
return, vertical tab, form feed), which is the fragment the specification and
the stored phrases exercise.
-/

/-- ASCII model of Python's regex word-character class `\w`:
letters, digits and underscore. -/
def isWordChar (c : Char) : Bool := c.isAlphanum || c == '_'

/-- ASCII model of Python's regex whitespace class `\s` (also used by
`str.strip`): space, tab, newline, carriage return, vertical tab, form feed. -/
def isSpaceChar (c : Char) : Bool :=
  c == ' ' || c == '\t' || c == '\n' || c == '\r' || c == '\x0B' || c == '\x0C'

/-- ASCII model of Python's lower-casing (`str.lower`, and the case folding
performed by `re.IGNORECASE` on ASCII letters). -/
def pyLower (c : Char) : Char :=
  if c = 'A' then 'a' else if c = 'B' then 'b' else if c = 'C' then 'c'
  else if c = 'D' then 'd' else if c = 'E' then 'e' else if c = 'F' then 'f'
  else if c = 'G' then 'g' else if c = 'H' then 'h' else if c = 'I' then 'i'
  else if c = 'J' then 'j' else if c = 'K' then 'k' else if c = 'L' then 'l'
  else if c = 'M' then 'm' else if c = 'N' then 'n' else if c = 'O' then 'o'
  else if c = 'P' then 'p' else if c = 'Q' then 'q' else if c = 'R' then 'r'
  else if c = 'S' then 's' else if c = 'T' then 't' else if c = 'U' then 'u'
  else if c = 'V' then 'v' else if c = 'W' then 'w' else if c = 'X' then 'x'
  else if c = 'Y' then 'y' else if c = 'Z' then 'z' else c

/-- Word-character test on an optional character; a missing character
(string start or end) counts as a non-word character, as in `re`. -/
def isWordOpt : Option Char → Bool
  | none => false
  | some c => isWordChar c

/-- The regex `\b` assertion holds between two (optional) characters exactly
when one side is a word character and the other is not. -/
def bdry (a b : Option Char) : Bool := isWordOpt a != isWordOpt b

/-- Model of matching the escaped literal pattern case-insensitively against a
prefix of the text: returns the consumed text characters and the remainder. -/
def splitCI : List Char → List Char → Option (List Char × List Char)
  | [], s => some ([], s)
  | _ :: _, [] => none
  | c :: cs, d :: ds =>
    if pyLower d = pyLower c then
      match splitCI cs ds with
      | some (con, rest) => some (d :: con, rest)
      | none => none
    else none

/-- Model of `pattern.sub(" ", text)` for the compiled pattern
`re.compile(r"\b" + re.escape(phrase) + r"\b", re.IGNORECASE)`:
a left-to-right scan replacing each leftmost non-overlapping match by a single
space.  `prev` is the original character preceding the current position (for
the `\b` test) and `fuel` bounds the recursion; `fuel = length of the text`
always suffices for a non-empty phrase. -/
def substGo (p : List Char) : Nat → Option Char → List Char → List Char
  | 0, _, s => s
  | _ + 1, _, [] => []
  | fuel + 1, prev, d :: ds =>
    match splitCI p (d :: ds) with
    | some (con, rest) =>
      if bdry prev (some d) && bdry con.getLast? rest.head? then
        ' ' :: substGo p fuel con.getLast? rest
      else d :: substGo p fuel (some d) ds
    | none => d :: substGo p fuel (some d) ds

/-- One `cleaned = pattern.sub(" ", cleaned)` step of the source loop. -/
def substPhrase (p s : List Char) : List Char := substGo p s.length none s

/-- Scan deciding whether a case-insensitive whole-word-boundary match of the
phrase occurs anywhere in the remaining text (the property language of the
spec invariant: model of `re.search` for the same pattern). -/
def hasMatchGo (p : List Char) : Option Char → List Char → Bool
  | _, [] => false
  | prev, d :: ds =>
    (match splitCI p (d :: ds) with
     | some (con, rest) => bdry prev (some d) && bdry con.getLast? rest.head?
     | none => false)
    || hasMatchGo p (some d) ds

/-- The text contains a case-insensitive whole-word-boundary occurrence of the
phrase. -/
def hasMatch (p s : List Char) : Bool := hasMatchGo p none s

/-- String-level wrapper of `hasMatch`. -/
def hasMatchStr (phrase s : String) : Bool := hasMatch phrase.toList s.toList

/-- Model of `re.sub(r"\s+", " ", text)`: each maximal run of whitespace is
replaced by a single space.  The flag records whether the scan is currently
inside a run whose single replacement space has already been emitted. -/
def collapseGo : Bool → List Char → List Char
  | _, [] => []
  | inRun, c :: cs =>
    if isSpaceChar c then
      if inRun then collapseGo true cs
      else ' ' :: collapseGo true cs
    else c :: collapseGo false cs

/-- Whitespace-run collapsing as used on the fully substituted text. -/
def collapseWS (s : List Char) : List Char := collapseGo false s

/-- Removal of a maximal trailing run of whitespace (the right half of
Python's `str.strip`). -/
def dropTrail : List Char → List Char
  | [] => []
  | c :: cs =>
    match dropTrail cs with
    | [] => if isSpaceChar c then [] else [c]
    | r :: rs => c :: r :: rs

/-- Model of Python's `str.strip()`: remove leading and trailing whitespace. -/
def pyStripChars (s : List Char) : List Char := dropTrail (s.dropWhile isSpaceChar)

/-- String-level `str.strip()`. -/
def pyStripStr (s : String) : String := String.mk (pyStripChars s.toList)

/-- String-level `str.lower()` (ASCII model). -/
def lowerStr (s : String) : String := String.mk (s.toList.map pyLower)

/-- One iteration of the source loop
`for phrase in intent_phrases: if not phrase: continue; cleaned = pattern.sub(" ", cleaned)`. -/
def cleanOne (cleaned phrase : List Char) : List Char :=
  if phrase = [] then cleaned else substPhrase phrase cleaned

/-- List-level body of `clean_text_remove_intent_phrases` (identical in
`speech.py` lines 62-77, `voice.py` lines 41-56, `voiceapi.py` lines 271-286):
empty text short-circuits to the empty string; every phrase is removed in the
given order by a case-insensitive whole-word substitution with a space; runs
of whitespace are collapsed and the ends are stripped. -/
def cleanTextList (text : List Char) (intent_phrases : List (List Char)) : List Char :=
  if text = [] then []
  else
    let cleaned := intent_phrases.foldl cleanOne text
    pyStripChars (collapseWS cleaned)

namespace speech

/-- Embedding of `clean_text_remove_intent_phrases` from `src/speech.py`
lines 62-77. -/
def clean_text_remove_intent_phrases (text : String) (intent_phrases : List String) : String :=
  String.mk (cleanTextList text.toList (intent_phrases.map String.toList))

end speech

namespace voice

/-- Embedding of `clean_text_remove_intent_phrases` from `src/voice.py`
lines 41-56. -/
def clean_text_remove_intent_phrases (text : String) (intent_phrases : List String) : String :=
  String.mk (cleanTextList text.toList (intent_phrases.map String.toList))

end voice

namespace voiceapi

/-- Embedding of `clean_text_remove_intent_phrases` from `src/voiceapi.py`
lines 271-286. -/
def clean_text_remove_intent_phrases (text : String) (intent_phrases : List String) : String :=
  String.mk (cleanTextList text.toList (intent_phrases.map String.toList))

end voiceapi

/-- Adjacent-pairs check that a phrase list is ordered longest first (the
order in which the store serves phrases to the cleaner). -/
def sortedLongestFirst : List String → Bool
  | [] => true
  | [_] => true
  | a :: b :: t => decide (b.length ≤ a.length) && sortedLongestFirst (b :: t)

instance : IsTotal String (fun a b => b.length ≤ a.length) :=
  ⟨fun a b => (Nat.le_total b.length a.length).imp id id⟩

instance : IsTrans String (fun a b => b.length ≤ a.length) :=
  ⟨fun _ _ _ hab hbc => Nat.le_trans hbc hab⟩

/-- Model of Python's stable `list.sort(key=len, reverse=True)`: a stable
insertion sort by descending length (insertion before the first strictly
shorter element keeps ties in their original order). -/
def sortLongest (l : List String) : List String :=
  List.insertionSort (fun a b => b.length ≤ a.length) l

/-- A stored intent phrase: an entry of the `search_keywords` array of
`intent_phrases.json` (`id` plus `value`). -/
structure IntentPhrase where
  id : Int
  value : String
deriving DecidableEq

/-- Embedding of `get_next_id` (`src/voiceapi.py` lines 83-91): 1 for an
empty store, otherwise the maximum stored id plus one. -/
def get_next_id (intent_phrases : List IntentPhrase) : Int :=
  match intent_phrases with
  | [] => 1
  | x :: xs => xs.foldl (fun m p => max m p.id) x.id + 1

/-- The maximum stored id with default 0, as the spec words the id
assignment (`max(existing ids, default 0)`). -/
def maxIdDefaultZero (s : List IntentPhrase) : Int :=
  match s with
  | [] => 0
  | x :: xs => xs.foldl (fun m p => max m p.id) x.id

/-- Outcome of the add endpoint: HTTP 400 "Phrase cannot be empty",
HTTP 400 "Phrase already exists", or success with the new entry. -/
inductive AddOutcome where
  | invalid : AddOutcome
  | duplicate : AddOutcome
  | ok : IntentPhrase → AddOutcome
deriving DecidableEq

/-- Embedding of `add_intent_phrase` (`src/voiceapi.py` lines 157-195) over
the loaded `search_keywords` list; the second component is the list that is
persisted (unchanged when the request is rejected, since the rejection is
raised before any mutation is saved). -/
def add_intent_phrase (store : List IntentPhrase) (phrase : String) :
    AddOutcome × List IntentPhrase :=
  let p := pyStripStr phrase
  if p = "" then (AddOutcome.invalid, store)
  else if (store.map (fun e => lowerStr e.value)).contains (lowerStr p) then
    (AddOutcome.duplicate, store)
  else
    let np : IntentPhrase := ⟨get_next_id store, p⟩
    (AddOutcome.ok np, store ++ [np])

/-- Outcome of the update endpoint. -/
inductive UpdateOutcome where
  | invalid : UpdateOutcome
  | notFound : UpdateOutcome
  | ok : UpdateOutcome
deriving DecidableEq

/-- The source update loop: replace the value of the first entry with the
given id (the loop breaks after the first hit). -/
def updateFirstValue : List IntentPhrase → Int → String → List IntentPhrase
  | [], _, _ => []
  | e :: es, pid, v => if e.id = pid then ⟨e.id, v⟩ :: es else e :: updateFirstValue es pid v

/-- Embedding of `update_intent_phrase` (`src/voiceapi.py` lines 229-265):
trims the new value, rejects an empty result, rejects an unknown id, and
otherwise replaces the value in place. -/
def update_intent_phrase (store : List IntentPhrase) (pid : Int) (new_phrase : String) :
    UpdateOutcome × List IntentPhrase :=
  let v := pyStripStr new_phrase
  if v = "" then (UpdateOutcome.invalid, store)
  else if store.any (fun e => e.id == pid) then
    (UpdateOutcome.ok, updateFirstValue store pid v)
  else (UpdateOutcome.notFound, store)

/-- Outcome of the delete endpoint. -/
inductive DeleteOutcome where
  | notFound : DeleteOutcome
  | ok : DeleteOutcome
deriving DecidableEq

/-- Embedding of `delete_intent_phrase` (`src/voiceapi.py` lines 198-226):
drop every entry with the given id; report not-found when the count is
unchanged. -/
def delete_intent_phrase (store : List IntentPhrase) (pid : Int) :
    DeleteOutcome × List IntentPhrase :=
  let rest := store.filter (fun e => !(e.id == pid))
  if rest.length = store.length then (DeleteOutcome.notFound, store)
  else (DeleteOutcome.ok, rest)

/-- The spec invariant for the phrase store: no two entries share an id and
no two entries share a case-insensitive value. -/
def StoreInvariant (store : List IntentPhrase) : Prop :=
  (store.map (fun e => e.id)).Nodup ∧ (store.map (fun e => lowerStr e.value)).Nodup

/-- A sequence of consecutive adds threaded through the store; `none` when
any add is rejected. -/
def addAll (store : List IntentPhrase) : List String → Option (List IntentPhrase)
  | [] => some store
  | v :: vs =>
    match add_intent_phrase store v with
    | (AddOutcome.ok _, store') => addAll store' vs
    | _ => none

namespace voiceapi

/-- Embedding of `load_intent_phrases` (`src/voiceapi.py` lines 35-59) over
the loaded `search_keywords` array: keep the entries whose value is truthy
and non-empty after trimming, take the trimmed values, and sort them longest
first (Python's `list.sort` is stable). -/
def load_intent_phrases (search_keywords : List IntentPhrase) : List String :=
  let phrases := (search_keywords.filter
      (fun item => decide (item.value ≠ "") && decide (pyStripStr item.value ≠ ""))).map
      (fun item => pyStripStr item.value)
  sortLongest phrases

end voiceapi

/-- A persisted transcription record (`save_transcription` builds exactly
these five fields). -/
structure TranscriptionData where
  id : String
  timestamp : String
  audio_file_path : String
  raw_text : String
  cleaned_text : String
deriving DecidableEq

/-- The durable transcript file: either well-formed content that parses to a
record list, or corrupt content (for example truncated mid-write) that the
loader cannot parse. -/
inductive LogFile where
  | wellFormed : List TranscriptionData → LogFile
  | corrupt : LogFile
deriving DecidableEq

/-- Embedding of the load step of `save_transcription` (`src/voiceapi.py`
lines 112-119): a parseable file yields its records; a missing or
unparsable file falls back to the empty list via the inner
`except: transcriptions = []` handler. -/
def loadTranscriptions : LogFile → List TranscriptionData
  | LogFile.wellFormed l => l
  | LogFile.corrupt => []

/-- The reachable failure points of the durable write
`with open(TRANSCRIPTIONS_PATH, "w") as f: json.dump(transcriptions, f, ...)`
(`src/voiceapi.py` lines 125-126): either the open itself fails and the file
is untouched, or the open succeeds — truncating the file — and the dump (or
close) then fails, leaving truncated or partial content behind. -/
inductive WriteFailure where
  | openFailed : String → WriteFailure
  | dumpFailed : String → WriteFailure
deriving DecidableEq

/-- Embedding of `save_transcription` (`src/voiceapi.py` lines 94-133).
The generated UUID and timestamp are inputs (they are nondeterministic in
the source), `file` is the durable transcript file before the call, and
`writeResult` models the outcome of the durable write, carrying the
exception text on failure.  The source loads the existing records (empty on
a missing or unparsable file), appends the new record, and rewrites the
whole file in truncating `"w"` mode; the outer handler catches every
exception, prints it, and returns `None`.  The second component is the
durable file after the call: on success the well-formed appended list, on a
failed open the untouched previous file, and on a failure after the
truncating open the corrupt remains of the interrupted write. -/
def save_transcription (file : LogFile)
    (transcription_id timestamp audio_file_path raw_text cleaned_text : String)
    (writeResult : Except WriteFailure Unit) :
    Option TranscriptionData × LogFile :=
  let transcriptions := loadTranscriptions file
  let td : TranscriptionData :=
    ⟨transcription_id, timestamp, audio_file_path, raw_text, cleaned_text⟩
  match writeResult with
  | Except.ok _ => (some td, LogFile.wellFormed (transcriptions ++ [td]))
  | Except.error (WriteFailure.openFailed _) => (none, file)
  | Except.error (WriteFailure.dumpFailed _) => (none, LogFile.corrupt)

/-- An accuracy report as produced by the `/evaluate` endpoint
(`src/voice.py` lines 116-158).  The numeric fields are modelled as exact
rationals. -/
structure EvalReport where
  ground_truth : String
  predicted_text : String
  word_error_rate : ℚ
  char_error_rate : ℚ
  accuracy_percent : ℚ

/-- Whitespace tokenisation into words (the word sequences scored by the
word error rate). -/
def wordsGo (cur : List Char) : List Char → List (List Char)
  | [] => if cur = [] then [] else [cur.reverse]
  | c :: cs =>
    if isSpaceChar c then
      if cur = [] then wordsGo [] cs else cur.reverse :: wordsGo [] cs
    else wordsGo (c :: cur) cs

/-- Words of a string, split on whitespace. -/
def wordsOf (s : String) : List (List Char) := wordsGo [] s.toList

/-- Levenshtein edit distance (substitutions, insertions and deletions all
of cost one). -/
def lev {α : Type} [DecidableEq α] : List α → List α → Nat
  | [], ys => ys.length
  | x :: xs, [] => (x :: xs).length
  | x :: xs, y :: ys =>
    if x = y then lev xs ys
    else 1 + min (lev xs ys) (min (lev (x :: xs) ys) (lev xs (y :: ys)))
termination_by xs ys => xs.length + ys.length
decreasing_by all_goals simp_arith

/-- Modelled from the spec: the error-rate formula shared by `jiwer.wer` and
`jiwer.cer` (third-party library, not part of the repository sources): edit
distance normalised by the reference length, with the empty/empty case
treated as 0 and the empty-reference nonempty-hypothesis case
implementation-defined (here: division by zero, which is 0 in ℚ). -/
def errRate {α : Type} [DecidableEq α] (ref hyp : List α) : ℚ :=
  if ref = [] ∧ hyp = [] then 0 else (lev ref hyp : ℚ) / (ref.length : ℚ)

/-- Round-half-to-even on a rational, yielding an integer (the tie-breaking
rule of Python's built-in `round`). -/
def rhe (q : ℚ) : Int :=
  let f := q.floor
  let r := q - (f : ℚ)
  if r < 1 / 2 then f
  else if 1 / 2 < r then f + 1
  else if f % 2 = 0 then f else f + 1

/-- Model of Python's `round(x, ndigits)` over exact rationals. -/
def pyRound (ndigits : Nat) (x : ℚ) : ℚ :=
  (rhe (x * 10 ^ ndigits) : ℚ) / 10 ^ ndigits

/-- Embedding of the metric computation of `evaluate_transcription`
(`src/voice.py` lines 116-158) after the speech-to-text call: both texts are
cleaned with the current phrase list, lower-cased, and scored; the word error
rate tokenises on whitespace, the character error rate scores raw character
sequences, and `accuracy = (1 - cer) * 100`; rates are rounded to 3 decimal
places and the accuracy to 2. -/
def evaluate_transcription (predicted_text ground_truth : String)
    (intent_phrases : List String) : EvalReport :=
  let cleaned_pred := voice.clean_text_remove_intent_phrases predicted_text intent_phrases
  let cleaned_truth := voice.clean_text_remove_intent_phrases ground_truth intent_phrases
  let word_error_rate : ℚ :=
    errRate (wordsOf (lowerStr cleaned_truth)) (wordsOf (lowerStr cleaned_pred))
  let char_error_rate : ℚ :=
    errRate (lowerStr cleaned_truth).toList (lowerStr cleaned_pred).toList
  let accuracy : ℚ := (1 - char_error_rate) * 100
  { ground_truth := cleaned_truth
    predicted_text := cleaned_pred
    word_error_rate := pyRound 3 word_error_rate
    char_error_rate := pyRound 3 char_error_rate
    accuracy_percent := pyRound 2 accuracy }

/-- Maximal word-character runs of the text, lower-cased: the token view
under which whole-word matching of word-only phrases operates.  `cur` holds
the reversed, lower-cased characters of the run in progress. -/
def tokensGo (cur : List Char) : List Char → List (List Char)
  | [] => if cur = [] then [] else [cur.reverse]
  | c :: cs =>
    if isWordChar c then tokensGo (pyLower c :: cur) cs
    else if cur = [] then tokensGo [] cs
    else cur.reverse :: tokensGo [] cs

/-- The lower-cased word tokens of a text. -/
def tokens (s : List Char) : List (List Char) := tokensGo [] s

/-- The tokens strictly after the word run at the head of the text. -/
def tokensRest (s : List Char) : List (List Char) :=
  match s.dropWhile isWordChar with
  | [] => []
  | _ :: t => tokensGo [] t

/-- Drop every token equal to the given one. -/
def filterNe (x : List Char) (l : List (List Char)) : List (List Char) :=
  l.filter (fun t => decide (t ≠ x))

/-- Keep the head token, drop every later token equal to the given one. -/
def filterTail (x : List Char) : List (List Char) → List (List Char)
  | [] => []
  | h :: t => h :: filterNe x t

/-- The phrase consists only of word characters. -/
def wordOnly (p : List Char) : Bool := p.all isWordChar

theorem isWordChar_pyLower (c : Char) : isWordChar (pyLower c) = isWordChar c := by
  unfold pyLower
  by_cases h1 : c = 'A'
  · subst h1; rfl
  · rw [if_neg h1]
    by_cases h2 : c = 'B'
    · subst h2; rfl
    · rw [if_neg h2]
      by_cases h3 : c = 'C'
      · subst h3; rfl
      · rw [if_neg h3]
        by_cases h4 : c = 'D'
        · subst h4; rfl
        · rw [if_neg h4]
          by_cases h5 : c = 'E'
          · subst h5; rfl
          · rw [if_neg h5]
            by_cases h6 : c = 'F'
            · subst h6; rfl
            · rw [if_neg h6]
              by_cases h7 : c = 'G'
              · subst h7; rfl
              · rw [if_neg h7]
                by_cases h8 : c = 'H'
                · subst h8; rfl
                · rw [if_neg h8]
                  by_cases h9 : c = 'I'
                  · subst h9; rfl
                  · rw [if_neg h9]
                    by_cases h10 : c = 'J'
                    · subst h10; rfl
                    · rw [if_neg h10]
                      by_cases h11 : c = 'K'
                      · subst h11; rfl
                      · rw [if_neg h11]
                        by_cases h12 : c = 'L'
                        · subst h12; rfl
                        · rw [if_neg h12]
                          by_cases h13 : c = 'M'
                          · subst h13; rfl
                          · rw [if_neg h13]
                            by_cases h14 : c = 'N'
                            · subst h14; rfl
                            · rw [if_neg h14]
                              by_cases h15 : c = 'O'
                              · subst h15; rfl
                              · rw [if_neg h15]
                                by_cases h16 : c = 'P'
                                · subst h16; rfl
                                · rw [if_neg h16]
                                  by_cases h17 : c = 'Q'
                                  · subst h17; rfl
                                  · rw [if_neg h17]
                                    by_cases h18 : c = 'R'
                                    · subst h18; rfl
                                    · rw [if_neg h18]
                                      by_cases h19 : c = 'S'
                                      · subst h19; rfl
                                      · rw [if_neg h19]
                                        by_cases h20 : c = 'T'
                                        · subst h20; rfl
                                        · rw [if_neg h20]
                                          by_cases h21 : c = 'U'
                                          · subst h21; rfl
                                          · rw [if_neg h21]
                                            by_cases h22 : c = 'V'
                                            · subst h22; rfl
                                            · rw [if_neg h22]
                                              by_cases h23 : c = 'W'
                                              · subst h23; rfl
                                              · rw [if_neg h23]
                                                by_cases h24 : c = 'X'
                                                · subst h24; rfl
                                                · rw [if_neg h24]
                                                  by_cases h25 : c = 'Y'
                                                  · subst h25; rfl
                                                  · rw [if_neg h25]
                                                    by_cases h26 : c = 'Z'
                                                    · subst h26; rfl
                                                    · rw [if_neg h26]

theorem isWordChar_eq_of_pyLower_eq {a b : Char} (h : pyLower a = pyLower b) :
    isWordChar a = isWordChar b := by
  rw [← isWordChar_pyLower a, ← isWordChar_pyLower b, h]

theorem not_word_of_space {c : Char} (h : isSpaceChar c = true) : isWordChar c = false := by
  simp only [isSpaceChar, Bool.or_eq_true, beq_iff_eq] at h
  rcases h with ((((h | h) | h) | h) | h) | h <;> subst h <;> rfl

theorem splitCI_eq (p : List Char) :
    ∀ (s con rest : List Char), splitCI p s = some (con, rest) →
      con ++ rest = s ∧ con.map pyLower = p.map pyLower := by
  induction p with
  | nil =>
    intro s con rest h
    simp only [splitCI, Option.some.injEq, Prod.mk.injEq] at h
    obtain ⟨h1, h2⟩ := h
    subst h1; subst h2; simp
  | cons c cs ih =>
    intro s con rest h
    cases s with
    | nil => simp [splitCI] at h
    | cons d ds =>
      simp only [splitCI] at h
      split at h
      · rename_i hdc
        cases hm : splitCI cs ds with
        | none => rw [hm] at h; simp at h
        | some pr =>
          obtain ⟨con', rest'⟩ := pr
          rw [hm] at h
          simp only [Option.some.injEq, Prod.mk.injEq] at h
          obtain ⟨h1, h2⟩ := h
          subst h2
          obtain ⟨ha, hb⟩ := ih ds con' rest' hm
          subst h1
          constructor
          · simp [ha]
          · simp [List.map_cons, hb, hdc]
      · exact absurd h (by simp)

theorem splitCI_of_map_eq (p : List Char) :
    ∀ (con rest : List Char), con.map pyLower = p.map pyLower →
      splitCI p (con ++ rest) = some (con, rest) := by
  induction p with
  | nil =>
    intro con rest h
    simp only [List.map_nil, List.map_eq_nil_iff] at h
    subst h
    simp [splitCI]
  | cons c cs ih =>
    intro con rest h
    cases con with
    | nil => simp at h
    | cons d con' =>
      simp only [List.map_cons, List.cons.injEq] at h
      obtain ⟨h1, h2⟩ := h
      simp only [List.cons_append, splitCI, if_pos h1, List.append_eq]
      rw [ih con' rest h2]

theorem wordOnly_of_map_pyLower_eq :
    ∀ (con p : List Char), con.map pyLower = p.map pyLower → wordOnly con = wordOnly p := by
  intro con
  induction con with
  | nil =>
    intro p h
    simp only [List.map_nil] at h
    rw [eq_comm, List.map_eq_nil_iff] at h
    subst h; rfl
  | cons d con' ih =>
    intro p h
    cases p with
    | nil => simp at h
    | cons c cs =>
      simp only [List.map_cons, List.cons.injEq] at h
      obtain ⟨h1, h2⟩ := h
      simp only [wordOnly, List.all_cons] at *
      rw [ih cs h2, isWordChar_eq_of_pyLower_eq h1]

theorem isWordOpt_getLast_of_wordOnly :
    ∀ (l : List Char), l ≠ [] → wordOnly l = true → isWordOpt l.getLast? = true := by
  intro l
  induction l with
  | nil => intro h; exact absurd rfl h
  | cons c cs ih =>
    intro _ hw
    cases cs with
    | nil =>
      simp only [wordOnly, List.all_cons, List.all_nil, Bool.and_true] at hw
      simp [List.getLast?, isWordOpt, hw]
    | cons d ds =>
      rw [List.getLast?_cons_cons]
      apply ih (by simp)
      simp only [wordOnly, List.all_cons, Bool.and_eq_true] at hw ⊢
      exact hw.2

theorem substGo_eq_self (p : List Char) :
    ∀ (fuel : Nat) (s : List Char), s.length ≤ fuel → ∀ prev,
      hasMatchGo p prev s = false → substGo p fuel prev s = s := by
  intro fuel
  induction fuel with
  | zero => intro s _ prev _; rfl
  | succ f ih =>
    intro s hlen prev hm
    cases s with
    | nil => rfl
    | cons d ds =>
      have hl : ds.length ≤ f := by simpa using hlen
      simp only [hasMatchGo, Bool.or_eq_false_iff] at hm
      obtain ⟨h1, h2⟩ := hm
      simp only [substGo]
      split
      · rename_i con rest heq
        rw [heq] at h1
        have h1' : (bdry prev (some d) && bdry con.getLast? rest.head?) = false := h1
        simp only [h1', Bool.false_eq_true, if_false]
        rw [ih ds hl (some d) h2]
      · rw [ih ds hl (some d) h2]

theorem tokensGo_cons_word {c : Char} (hc : isWordChar c = true) (cur cs : List Char) :
    tokensGo cur (c :: cs) = tokensGo (pyLower c :: cur) cs := by
  simp [tokensGo, hc]

theorem tokensGo_cons_nonword_nil {c : Char} (hc : isWordChar c = false) (cs : List Char) :
    tokensGo [] (c :: cs) = tokensGo [] cs := by
  simp [tokensGo, hc]

theorem tokensGo_cons_nonword {c : Char} (hc : isWordChar c = false) {cur : List Char}
    (hcur : cur ≠ []) (cs : List Char) :
    tokensGo cur (c :: cs) = cur.reverse :: tokensGo [] cs := by
  simp [tokensGo, hc, hcur]

theorem tokensGo_all_space :
    ∀ (v : List Char), (∀ c ∈ v, isSpaceChar c = true) →
      ∀ cur, tokensGo cur v = tokensGo cur [] := by
  intro v
  induction v with
  | nil => intro _ cur; rfl
  | cons c cs ih =>
    intro hv cur
    have hcs : isSpaceChar c = true := hv c (by simp)
    have hcw : isWordChar c = false := not_word_of_space hcs
    have ih' := ih (fun x hx => hv x (by simp [hx]))
    by_cases hcur : cur = []
    · subst hcur
      simp only [tokensGo, hcw, Bool.false_eq_true, if_false, if_pos rfl]
      exact ih' []
    · simp only [tokensGo, hcw, Bool.false_eq_true, if_false, if_neg hcur]
      rw [ih' []]
      simp [tokensGo]

theorem tokensGo_word_run :
    ∀ (con : List Char), wordOnly con = true →
      ∀ (cur rest : List Char),
        tokensGo cur (con ++ rest) = tokensGo ((con.map pyLower).reverse ++ cur) rest := by
  intro con
  induction con with
  | nil => intro _ cur rest; simp
  | cons c cs ih =>
    intro hw cur rest
    have hc : isWordChar c = true := by
      simp only [wordOnly, List.all_cons, Bool.and_eq_true] at hw
      exact hw.1
    have hcs : wordOnly cs = true := by
      simp only [wordOnly, List.all_cons, Bool.and_eq_true] at hw
      exact hw.2
    rw [List.cons_append, tokensGo_cons_word hc, ih hcs (pyLower c :: cur) rest]
    simp [List.append_assoc]

theorem isWordOpt_head_dropWhile (s : List Char) :
    isWordOpt ((s.dropWhile isWordChar).head?) = false := by
  induction s with
  | nil => rfl
  | cons c cs ih =>
    cases hw : isWordChar c with
    | true => simp [List.dropWhile, hw, ih]
    | false => simp [List.dropWhile, hw, isWordOpt]

theorem wordOnly_takeWhile (s : List Char) : wordOnly (s.takeWhile isWordChar) = true := by
  induction s with
  | nil => rfl
  | cons c cs ih =>
    cases hw : isWordChar c with
    | true => simp [List.takeWhile, hw, wordOnly, ih]
    | false => simp [List.takeWhile, hw, wordOnly]

theorem tokensGo_cons_structure (s : List Char) :
    ∀ cur, cur ≠ [] →
      tokensGo cur s = (cur.reverse ++ (s.takeWhile isWordChar).map pyLower) :: tokensRest s := by
  induction s with
  | nil => intro cur hcur; simp [tokensGo, tokensRest, hcur]
  | cons c cs ih =>
    intro cur hcur
    cases hw : isWordChar c with
    | true =>
      have h1 : tokensGo cur (c :: cs) = tokensGo (pyLower c :: cur) cs := by
        simp [tokensGo, hw]
      rw [h1, ih (pyLower c :: cur) (by simp)]
      have h2 : tokensRest (c :: cs) = tokensRest cs := by
        simp [tokensRest, List.dropWhile, hw]
      rw [h2]
      simp [List.takeWhile, hw, List.append_assoc]
    | false =>
      have h1 : tokensGo cur (c :: cs) = cur.reverse :: tokensGo [] cs := by
        simp [tokensGo, hw, hcur]
      rw [h1]
      simp [tokensRest, List.takeWhile, List.dropWhile, hw]

theorem tokens_split_at_match (p s con rest : List Char) (hp : p ≠ [])
    (hw : wordOnly p = true) (hsp : splitCI p s = some (con, rest))
    (hrest : isWordOpt rest.head? = false) :
    tokensGo [] s = p.map pyLower :: tokensGo [] rest := by
  obtain ⟨hs, hmap⟩ := splitCI_eq p s con rest hsp
  have hwcon : wordOnly con = true := by
    rw [wordOnly_of_map_pyLower_eq con p hmap]; exact hw
  have hcon : con ≠ [] := by
    intro h
    subst h
    simp only [List.map_nil] at hmap
    exact hp (List.map_eq_nil_iff.mp hmap.symm)
  subst hs
  rw [tokensGo_word_run con hwcon [] rest]
  rw [List.append_nil]
  have hrevne : (con.map pyLower).reverse ≠ [] := by
    simp [List.reverse_eq_nil_iff, List.map_eq_nil_iff, hcon]
  cases rest with
  | nil =>
    simp [tokensGo, hrevne, hmap, hp]
  | cons r rs =>
    have hr : isWordChar r = false := by simpa [isWordOpt] using hrest
    have h1 : tokensGo ((con.map pyLower).reverse) (r :: rs) =
        ((con.map pyLower).reverse).reverse :: tokensGo [] rs := by
      simp [tokensGo, hr, hrevne]
    rw [h1]
    simp [tokensGo, hr, hmap]

theorem isWordOpt_false_of_bdry_right {a b : Option Char} (h : bdry a b = true)
    (hb : isWordOpt b = true) : isWordOpt a = false := by
  cases ha : isWordOpt a
  · rfl
  · exfalso; rw [bdry, ha, hb] at h; simp at h

theorem isWordOpt_false_of_bdry_left {a b : Option Char} (h : bdry a b = true)
    (ha : isWordOpt a = true) : isWordOpt b = false := by
  cases hb : isWordOpt b
  · rfl
  · exfalso; rw [bdry, ha, hb] at h; simp at h

theorem bdry_of_word_right {a b : Option Char} (ha : isWordOpt a = false)
    (hb : isWordOpt b = true) : bdry a b = true := by
  rw [bdry, ha, hb]; rfl

theorem bdry_false_of_words {a b : Option Char} (ha : isWordOpt a = true)
    (hb : isWordOpt b = true) : bdry a b = false := by
  rw [bdry, ha, hb]; rfl

theorem bdry_of_word_left {a b : Option Char} (ha : isWordOpt a = true)
    (hb : isWordOpt b = false) : bdry a b = true := by
  rw [bdry, ha, hb]; rfl

theorem splitCI_cons_head {p : List Char} (hp : p ≠ []) {d : Char} {ds con rest : List Char}
    (h : splitCI p (d :: ds) = some (con, rest)) :
    ∃ con', con = d :: con' ∧ con' ++ rest = ds ∧ rest.length ≤ ds.length := by
  obtain ⟨hs, hmap⟩ := splitCI_eq p (d :: ds) con rest h
  cases con with
  | nil =>
    exfalso
    simp only [List.map_nil] at hmap
    exact hp (List.map_eq_nil_iff.mp hmap.symm)
  | cons e con' =>
    simp only [List.cons_append, List.cons.injEq] at hs
    obtain ⟨hed, hds⟩ := hs
    subst hed
    refine ⟨con', rfl, hds, ?_⟩
    rw [← hds, List.length_append]
    omega

theorem substGo_tokens (p : List Char) (hp : p ≠ []) (hw : wordOnly p = true) :
    ∀ (fuel : Nat) (s : List Char), s.length ≤ fuel → ∀ (prev : Option Char),
      ((isWordOpt prev = false ∨ isWordOpt s.head? = false) →
        tokensGo [] (substGo p fuel prev s) = filterNe (p.map pyLower) (tokensGo [] s)) ∧
      (∀ cur, cur ≠ [] → isWordOpt prev = true →
        tokensGo cur (substGo p fuel prev s) = filterTail (p.map pyLower) (tokensGo cur s)) := by
  intro fuel
  induction fuel with
  | zero =>
    intro s hlen prev
    have hs : s = [] := List.eq_nil_of_length_eq_zero (Nat.le_zero.mp hlen)
    subst hs
    constructor
    · intro _; rfl
    · intro cur hcur _
      show tokensGo cur [] = filterTail (p.map pyLower) (tokensGo cur [])
      simp [tokensGo, hcur, filterTail, filterNe]
  | succ f ih =>
    intro s hlen prev
    cases s with
    | nil =>
      constructor
      · intro _; rfl
      · intro cur hcur _
        show tokensGo cur [] = filterTail (p.map pyLower) (tokensGo cur [])
        simp [tokensGo, hcur, filterTail, filterNe]
    | cons d ds =>
      have hl : ds.length ≤ f := by simpa using hlen
      constructor
      · intro hcond
        simp only [substGo]
        split
        · rename_i con rest heq
          obtain ⟨con', hcon, hds, hrlen⟩ := splitCI_cons_head hp heq
          obtain ⟨hs_eq, hmap⟩ := splitCI_eq p _ con rest heq
          have hwcon : wordOnly con = true := by
            rw [wordOnly_of_map_pyLower_eq con p hmap]; exact hw
          have hdword : isWordChar d = true := by
            subst hcon
            simp only [wordOnly, List.all_cons, Bool.and_eq_true] at hwcon
            exact hwcon.1
          by_cases hb : (bdry prev (some d) && bdry con.getLast? rest.head?) = true
          · rw [if_pos hb]
            rw [Bool.and_eq_true] at hb
            have hgl : isWordOpt con.getLast? = true :=
              isWordOpt_getLast_of_wordOnly con (by subst hcon; simp) hwcon
            have hrest : isWordOpt rest.head? = false :=
              isWordOpt_false_of_bdry_left hb.2 hgl
            rw [tokensGo_cons_nonword_nil (show isWordChar ' ' = false from rfl)]
            rw [(ih rest (le_trans hrlen hl) con.getLast?).1 (Or.inr hrest)]
            rw [tokens_split_at_match p (d :: ds) con rest hp hw heq hrest]
            simp [filterNe]
          · rw [if_neg hb]
            have hprev : isWordOpt prev = false := by
              rcases hcond with h | h
              · exact h
              · rw [List.head?_cons] at h
                rw [show isWordOpt (some d) = isWordChar d from rfl, hdword] at h
                exact absurd h (by simp)
            rw [tokensGo_cons_word hdword]
            rw [(ih ds hl (some d)).2 [pyLower d] (by simp)
              (by rw [show isWordOpt (some d) = isWordChar d from rfl]; exact hdword)]
            rw [tokensGo_cons_word hdword]
            rw [tokensGo_cons_structure ds [pyLower d] (by simp)]
            have hhead : (pyLower d :: (ds.takeWhile isWordChar).map pyLower) ≠
                p.map pyLower := by
              intro hcontra
              have hmap2 : (d :: ds.takeWhile isWordChar).map pyLower = p.map pyLower := by
                simpa using hcontra
              have hsp2 := splitCI_of_map_eq p (d :: ds.takeWhile isWordChar)
                (ds.dropWhile isWordChar) hmap2
              rw [List.cons_append, List.takeWhile_append_dropWhile] at hsp2
              rw [heq] at hsp2
              simp only [Option.some.injEq, Prod.mk.injEq] at hsp2
              obtain ⟨hc2, hr2⟩ := hsp2
              apply hb
              rw [Bool.and_eq_true]
              constructor
              · exact bdry_of_word_right hprev
                  (by rw [show isWordOpt (some d) = isWordChar d from rfl]; exact hdword)
              · apply bdry_of_word_left
                · exact isWordOpt_getLast_of_wordOnly con (by subst hcon; simp) hwcon
                · rw [hr2]; exact isWordOpt_head_dropWhile ds
            simp [filterTail, filterNe, hhead]
        · rename_i heq
          by_cases hdw : isWordChar d = true
          · have hprev : isWordOpt prev = false := by
              rcases hcond with h | h
              · exact h
              · rw [List.head?_cons] at h
                rw [show isWordOpt (some d) = isWordChar d from rfl, hdw] at h
                exact absurd h (by simp)
            rw [tokensGo_cons_word hdw]
            rw [(ih ds hl (some d)).2 [pyLower d] (by simp)
              (by rw [show isWordOpt (some d) = isWordChar d from rfl]; exact hdw)]
            rw [tokensGo_cons_word hdw]
            rw [tokensGo_cons_structure ds [pyLower d] (by simp)]
            have hhead : (pyLower d :: (ds.takeWhile isWordChar).map pyLower) ≠
                p.map pyLower := by
              intro hcontra
              have hmap2 : (d :: ds.takeWhile isWordChar).map pyLower = p.map pyLower := by
                simpa using hcontra
              have hsp2 := splitCI_of_map_eq p (d :: ds.takeWhile isWordChar)
                (ds.dropWhile isWordChar) hmap2
              rw [List.cons_append, List.takeWhile_append_dropWhile] at hsp2
              rw [heq] at hsp2
              simp at hsp2
            simp [filterTail, filterNe, hhead]
          · have hdw' : isWordChar d = false := by simpa using hdw
            rw [tokensGo_cons_nonword_nil hdw']
            rw [(ih ds hl (some d)).1
              (Or.inl (by rw [show isWordOpt (some d) = isWordChar d from rfl]; exact hdw'))]
            rw [tokensGo_cons_nonword_nil hdw']
      · intro cur hcur hprev
        simp only [substGo]
        split
        · rename_i con rest heq
          obtain ⟨con', hcon, hds, hrlen⟩ := splitCI_cons_head hp heq
          obtain ⟨hs_eq, hmap⟩ := splitCI_eq p _ con rest heq
          have hwcon : wordOnly con = true := by
            rw [wordOnly_of_map_pyLower_eq con p hmap]; exact hw
          have hdword : isWordChar d = true := by
            subst hcon
            simp only [wordOnly, List.all_cons, Bool.and_eq_true] at hwcon
            exact hwcon.1
          have hbf : (bdry prev (some d) && bdry con.getLast? rest.head?) = false := by
            have h1 : bdry prev (some d) = false := bdry_false_of_words hprev
              (by rw [show isWordOpt (some d) = isWordChar d from rfl]; exact hdword)
            rw [h1]; rfl
          rw [if_neg (by simp [hbf])]
          rw [tokensGo_cons_word hdword]
          rw [(ih ds hl (some d)).2 (pyLower d :: cur) (by simp)
            (by rw [show isWordOpt (some d) = isWordChar d from rfl]; exact hdword)]
          rw [tokensGo_cons_word hdword]
        · rename_i heq
          by_cases hdw : isWordChar d = true
          · rw [tokensGo_cons_word hdw]
            rw [(ih ds hl (some d)).2 (pyLower d :: cur) (by simp)
              (by rw [show isWordOpt (some d) = isWordChar d from rfl]; exact hdw)]
            rw [tokensGo_cons_word hdw]
          · have hdw' : isWordChar d = false := by simpa using hdw
            rw [tokensGo_cons_nonword hdw' hcur]
            rw [(ih ds hl (some d)).1
              (Or.inl (by rw [show isWordOpt (some d) = isWordChar d from rfl]; exact hdw'))]
            rw [tokensGo_cons_nonword hdw' hcur]
            simp [filterTail]

theorem hasMatchGo_mem_tokens (p : List Char) (hp : p ≠ []) (hw : wordOnly p = true) :
    ∀ (s : List Char) (prev : Option Char),
      ((isWordOpt prev = false ∨ isWordOpt s.head? = false) →
        hasMatchGo p prev s = true → p.map pyLower ∈ tokensGo [] s) ∧
      (isWordOpt prev = true →
        hasMatchGo p prev s = true → p.map pyLower ∈ tokensRest s) := by
  intro s
  induction s with
  | nil =>
    intro prev
    exact ⟨fun _ h => by simp [hasMatchGo] at h, fun _ h => by simp [hasMatchGo] at h⟩
  | cons d ds ih =>
    intro prev
    constructor
    · intro _ hm
      simp only [hasMatchGo, Bool.or_eq_true] at hm
      rcases hm with hm | hm
      · cases heq : splitCI p (d :: ds) with
        | none => rw [heq] at hm; simp at hm
        | some pr =>
          obtain ⟨con, rest⟩ := pr
          rw [heq] at hm
          have hm' : (bdry prev (some d) && bdry con.getLast? rest.head?) = true := hm
          rw [Bool.and_eq_true] at hm'
          obtain ⟨con', hcon, _, _⟩ := splitCI_cons_head hp heq
          obtain ⟨_, hmap⟩ := splitCI_eq p _ con rest heq
          have hwcon : wordOnly con = true := by
            rw [wordOnly_of_map_pyLower_eq con p hmap]; exact hw
          have hgl := isWordOpt_getLast_of_wordOnly con (by subst hcon; simp) hwcon
          have hrest : isWordOpt rest.head? = false :=
            isWordOpt_false_of_bdry_left hm'.2 hgl
          rw [tokens_split_at_match p (d :: ds) con rest hp hw heq hrest]
          simp
      · by_cases hdw : isWordChar d = true
        · have hmem := (ih (some d)).2 (by simp [isWordOpt, hdw]) hm
          rw [tokensGo_cons_word hdw, tokensGo_cons_structure ds [pyLower d] (by simp)]
          simp [hmem]
        · have hdw' : isWordChar d = false := by simpa using hdw
          have hmem := (ih (some d)).1 (Or.inl (by simp [isWordOpt, hdw'])) hm
          rw [tokensGo_cons_nonword_nil hdw']
          exact hmem
    · intro hprev hm
      simp only [hasMatchGo, Bool.or_eq_true] at hm
      rcases hm with hm | hm
      · cases heq : splitCI p (d :: ds) with
        | none => rw [heq] at hm; simp at hm
        | some pr =>
          obtain ⟨con, rest⟩ := pr
          rw [heq] at hm
          have hm' : (bdry prev (some d) && bdry con.getLast? rest.head?) = true := hm
          rw [Bool.and_eq_true] at hm'
          obtain ⟨con', hcon, _, _⟩ := splitCI_cons_head hp heq
          obtain ⟨_, hmap⟩ := splitCI_eq p _ con rest heq
          have hwcon : wordOnly con = true := by
            rw [wordOnly_of_map_pyLower_eq con p hmap]; exact hw
          have hdword : isWordChar d = true := by
            subst hcon
            simp only [wordOnly, List.all_cons, Bool.and_eq_true] at hwcon
            exact hwcon.1
          have hbf := bdry_false_of_words hprev
            (by rw [show isWordOpt (some d) = isWordChar d from rfl]; exact hdword)
          exact absurd hm'.1 (by simp [hbf])
      · by_cases hdw : isWordChar d = true
        · have hmem := (ih (some d)).2 (by simp [isWordOpt, hdw]) hm
          have hrw : tokensRest (d :: ds) = tokensRest ds := by
            simp [tokensRest, List.dropWhile, hdw]
          rw [hrw]
          exact hmem
        · have hdw' : isWordChar d = false := by simpa using hdw
          have hmem := (ih (some d)).1 (Or.inl (by simp [isWordOpt, hdw'])) hm
          have hrw : tokensRest (d :: ds) = tokensGo [] ds := by
            simp [tokensRest, List.dropWhile, hdw']
          rw [hrw]
          exact hmem

theorem tokensGo_collapseGo :
    ∀ (s : List Char) (b : Bool) (cur : List Char), (b = true → cur = []) →
      tokensGo cur (collapseGo b s) = tokensGo cur s := by
  intro s
  induction s with
  | nil => intro b cur _; rfl
  | cons c cs ih =>
    intro b cur hb
    cases hsp : isSpaceChar c with
    | true =>
      have hcw : isWordChar c = false := not_word_of_space hsp
      cases b with
      | true =>
        have hcur : cur = [] := hb rfl
        subst hcur
        have h1 : collapseGo true (c :: cs) = collapseGo true cs := by
          simp [collapseGo, hsp]
        rw [h1, ih true [] (fun _ => rfl), tokensGo_cons_nonword_nil hcw]
      | false =>
        have h1 : collapseGo false (c :: cs) = ' ' :: collapseGo true cs := by
          simp [collapseGo, hsp]
        rw [h1]
        by_cases hcur : cur = []
        · subst hcur
          rw [tokensGo_cons_nonword_nil (show isWordChar ' ' = false from rfl)]
          rw [ih true [] (fun _ => rfl), tokensGo_cons_nonword_nil hcw]
        · rw [tokensGo_cons_nonword (show isWordChar ' ' = false from rfl) hcur]
          rw [ih true [] (fun _ => rfl), tokensGo_cons_nonword hcw hcur]
    | false =>
      have h1 : collapseGo b (c :: cs) = c :: collapseGo false cs := by
        cases b <;> simp [collapseGo, hsp]
      rw [h1]
      cases hw : isWordChar c with
      | true =>
        rw [tokensGo_cons_word hw, tokensGo_cons_word hw]
        exact ih false (pyLower c :: cur) (fun h => by simp at h)
      | false =>
        by_cases hcur : cur = []
        · subst hcur
          rw [tokensGo_cons_nonword_nil hw, tokensGo_cons_nonword_nil hw]
          exact ih false [] (fun h => by simp at h)
        · rw [tokensGo_cons_nonword hw hcur, tokensGo_cons_nonword hw hcur]
          rw [ih false [] (fun h => by simp at h)]

theorem tokens_dropWhile_space (s : List Char) :
    tokensGo [] (s.dropWhile isSpaceChar) = tokensGo [] s := by
  induction s with
  | nil => rfl
  | cons c cs ih =>
    cases hsp : isSpaceChar c with
    | true =>
      have hcw : isWordChar c = false := not_word_of_space hsp
      rw [List.dropWhile_cons_of_pos (by simp [hsp]), ih, tokensGo_cons_nonword_nil hcw]
    | false =>
      rw [List.dropWhile_cons_of_neg (by simp [hsp])]

theorem dropTrail_all_space :
    ∀ (l : List Char), dropTrail l = [] → ∀ c ∈ l, isSpaceChar c = true := by
  intro l
  induction l with
  | nil => intro _ c hc; simp at hc
  | cons a as ih =>
    intro h c hc
    cases hdt : dropTrail as with
    | cons r rs => rw [dropTrail, hdt] at h; simp at h
    | nil =>
      rw [dropTrail, hdt] at h
      have hsa : isSpaceChar a = true := by
        by_contra hna
        rw [if_neg (by simpa using hna)] at h
        simp at h
      rcases List.mem_cons.mp hc with hc | hc
      · subst hc; exact hsa
      · exact ih hdt c hc

theorem dropTrail_head :
    ∀ (l : List Char) (r : Char) (rs : List Char), dropTrail l = r :: rs →
      l.head? = some r := by
  intro l
  induction l with
  | nil => intro r rs h; simp [dropTrail] at h
  | cons a as _ =>
    intro r rs h
    cases hdt : dropTrail as with
    | nil =>
      rw [dropTrail, hdt] at h
      by_cases hsa : isSpaceChar a = true
      · rw [if_pos hsa] at h; simp at h
      · rw [if_neg hsa] at h
        simp only [List.cons.injEq] at h
        rw [List.head?_cons, h.1]
    | cons r' rs' =>
      rw [dropTrail, hdt] at h
      simp only [List.cons.injEq] at h
      rw [List.head?_cons, h.1]

theorem dropTrail_idem : ∀ (l : List Char), dropTrail (dropTrail l) = dropTrail l := by
  intro l
  induction l with
  | nil => rfl
  | cons a as ih =>
    cases hdt : dropTrail as with
    | nil =>
      rw [dropTrail, hdt]
      by_cases hsa : isSpaceChar a = true
      · rw [if_pos hsa]; rfl
      · rw [if_neg hsa]
        show dropTrail [a] = [a]
        rw [dropTrail]
        show (match dropTrail [] with
          | [] => if isSpaceChar a then [] else [a]
          | r :: rs => a :: r :: rs) = [a]
        rw [show dropTrail ([] : List Char) = [] from rfl]
        simp [hsa]
    | cons r rs =>
      rw [dropTrail, hdt]
      show dropTrail (a :: r :: rs) = a :: r :: rs
      rw [dropTrail]
      rw [show dropTrail (r :: rs) = dropTrail (dropTrail as) from by rw [hdt]]
      rw [ih, hdt]

theorem tokensGo_dropTrail :
    ∀ (l : List Char) (cur : List Char), tokensGo cur (dropTrail l) = tokensGo cur l := by
  intro l
  induction l with
  | nil => intro cur; rfl
  | cons c cs ih =>
    intro cur
    cases hdt : dropTrail cs with
    | nil =>
      have hall : ∀ x ∈ cs, isSpaceChar x = true := dropTrail_all_space cs hdt
      rw [dropTrail, hdt]
      cases hsc : isSpaceChar c with
      | true =>
        rw [if_pos rfl]
        have hcw : isWordChar c = false := not_word_of_space hsc
        by_cases hcur : cur = []
        · subst hcur
          rw [tokensGo_cons_nonword_nil hcw, tokensGo_all_space cs hall []]
        · rw [tokensGo_cons_nonword hcw hcur, tokensGo_all_space cs hall []]
          simp [tokensGo, hcur]
      | false =>
        rw [if_neg (by simp)]
        cases hw : isWordChar c with
        | true =>
          rw [tokensGo_cons_word hw, tokensGo_cons_word hw,
            tokensGo_all_space cs hall (pyLower c :: cur)]
        | false =>
          by_cases hcur : cur = []
          · subst hcur
            rw [tokensGo_cons_nonword_nil hw, tokensGo_cons_nonword_nil hw,
              tokensGo_all_space cs hall []]
          · rw [tokensGo_cons_nonword hw hcur, tokensGo_cons_nonword hw hcur,
              tokensGo_all_space cs hall []]
    | cons r rs =>
      have hstep : dropTrail (c :: cs) = c :: dropTrail cs := by
        rw [dropTrail, hdt]
      rw [hstep]
      cases hw : isWordChar c with
      | true => rw [tokensGo_cons_word hw, tokensGo_cons_word hw, ih]
      | false =>
        by_cases hcur : cur = []
        · subst hcur
          rw [tokensGo_cons_nonword_nil hw, tokensGo_cons_nonword_nil hw, ih]
        · rw [tokensGo_cons_nonword hw hcur, tokensGo_cons_nonword hw hcur, ih]

theorem tokens_pyStripChars (s : List Char) :
    tokensGo [] (pyStripChars s) = tokensGo [] s := by
  rw [pyStripChars, tokensGo_dropTrail]
  exact tokens_dropWhile_space s

theorem tokens_collapseWS (s : List Char) :
    tokensGo [] (collapseWS s) = tokensGo [] s :=
  tokensGo_collapseGo s false [] (fun h => by simp at h)

theorem collapseGo_mem :
    ∀ (s : List Char) (b : Bool) (c : Char), c ∈ collapseGo b s →
      isSpaceChar c = true → c = ' ' := by
  intro s
  induction s with
  | nil => intro b c hc; simp [collapseGo] at hc
  | cons a as ih =>
    intro b c hc hsc
    cases hsa : isSpaceChar a with
    | true =>
      cases b with
      | true =>
        rw [show collapseGo true (a :: as) = collapseGo true as from by simp [collapseGo, hsa]] at hc
        exact ih true c hc hsc
      | false =>
        rw [show collapseGo false (a :: as) = ' ' :: collapseGo true as from by
          simp [collapseGo, hsa]] at hc
        rcases List.mem_cons.mp hc with hc | hc
        · exact hc
        · exact ih true c hc hsc
    | false =>
      rw [show collapseGo b (a :: as) = a :: collapseGo false as from by
        cases b <;> simp [collapseGo, hsa]] at hc
      rcases List.mem_cons.mp hc with hc | hc
      · subst hc; rw [hsc] at hsa; simp at hsa
      · exact ih false c hc hsc

theorem collapseGo_true_head :
    ∀ (s : List Char), ∀ c ∈ (collapseGo true s).head?, isSpaceChar c = false := by
  intro s
  induction s with
  | nil => intro c hc; simp [collapseGo] at hc
  | cons a as ih =>
    intro c hc
    cases hsa : isSpaceChar a with
    | true =>
      rw [show collapseGo true (a :: as) = collapseGo true as from by simp [collapseGo, hsa]] at hc
      exact ih c hc
    | false =>
      rw [show collapseGo true (a :: as) = a :: collapseGo false as from by
        simp [collapseGo, hsa]] at hc
      simp only [List.head?_cons, Option.mem_def, Option.some.injEq] at hc
      subst hc; exact hsa

theorem collapseGo_chain :
    ∀ (s : List Char) (b : Bool),
      List.Chain' (fun x y => isSpaceChar x = false ∨ isSpaceChar y = false)
        (collapseGo b s) := by
  intro s
  induction s with
  | nil => intro b; simp [collapseGo]
  | cons a as ih =>
    intro b
    cases hsa : isSpaceChar a with
    | true =>
      cases b with
      | true =>
        rw [show collapseGo true (a :: as) = collapseGo true as from by simp [collapseGo, hsa]]
        exact ih true
      | false =>
        rw [show collapseGo false (a :: as) = ' ' :: collapseGo true as from by
          simp [collapseGo, hsa]]
        rw [List.chain'_cons']
        exact ⟨fun y hy => Or.inr (collapseGo_true_head as y hy), ih true⟩
    | false =>
      rw [show collapseGo b (a :: as) = a :: collapseGo false as from by
        cases b <;> simp [collapseGo, hsa]]
      rw [List.chain'_cons']
      exact ⟨fun _ _ => Or.inl hsa, ih false⟩

theorem collapseGo_eq_self :
    ∀ (s : List Char), (∀ c ∈ s, isSpaceChar c = true → c = ' ') →
      List.Chain' (fun x y => isSpaceChar x = false ∨ isSpaceChar y = false) s →
      collapseGo false s = s ∧
        ((∀ c ∈ s.head?, isSpaceChar c = false) → collapseGo true s = s) := by
  intro s
  induction s with
  | nil => intro _ _; exact ⟨rfl, fun _ => rfl⟩
  | cons a as ih =>
    intro hmem hch
    rw [List.chain'_cons'] at hch
    obtain ⟨hrel, hch'⟩ := hch
    have ih' := ih (fun c hc => hmem c (List.mem_cons_of_mem a hc)) hch'
    cases hsa : isSpaceChar a with
    | true =>
      have ha : a = ' ' := hmem a (by simp) hsa
      have hhead : ∀ c ∈ as.head?, isSpaceChar c = false := by
        intro c hc
        rcases hrel c hc with h | h
        · rw [hsa] at h; simp at h
        · exact h
      constructor
      · rw [show collapseGo false (a :: as) = ' ' :: collapseGo true as from by
          simp [collapseGo, hsa]]
        rw [ih'.2 hhead, ha]
      · intro hhd
        have := hhd a (by simp)
        rw [hsa] at this; simp at this
    | false =>
      constructor
      · rw [show collapseGo false (a :: as) = a :: collapseGo false as from by
          simp [collapseGo, hsa]]
        rw [ih'.1]
      · intro _
        rw [show collapseGo true (a :: as) = a :: collapseGo false as from by
          simp [collapseGo, hsa]]
        rw [ih'.1]

theorem chain'_dropWhile {R : Char → Char → Prop} {p : Char → Bool} :
    ∀ (l : List Char), List.Chain' R l → List.Chain' R (l.dropWhile p) := by
  intro l
  induction l with
  | nil => intro _; simp
  | cons a as ih =>
    intro hch
    rw [List.chain'_cons'] at hch
    cases hp : p a with
    | true =>
      rw [List.dropWhile_cons_of_pos (by simp [hp])]
      exact ih hch.2
    | false =>
      rw [List.dropWhile_cons_of_neg (by simp [hp])]
      rw [List.chain'_cons']
      exact hch

theorem chain'_dropTrail {R : Char → Char → Prop} :
    ∀ (l : List Char), List.Chain' R l → List.Chain' R (dropTrail l) := by
  intro l
  induction l with
  | nil => intro _; simp [dropTrail]
  | cons a as ih =>
    intro hch
    rw [List.chain'_cons'] at hch
    obtain ⟨hrel, hch'⟩ := hch
    cases hdt : dropTrail as with
    | nil =>
      rw [dropTrail, hdt]
      by_cases hsa : isSpaceChar a = true
      · rw [if_pos hsa]; simp
      · rw [if_neg hsa]; simp
    | cons r rs =>
      rw [dropTrail, hdt]
      rw [List.chain'_cons']
      constructor
      · intro y hy
        simp only [List.head?_cons, Option.mem_def, Option.some.injEq] at hy
        subst hy
        have hhead : as.head? = some r := dropTrail_head as r rs hdt
        exact hrel r (by rw [hhead]; rfl)
      · have := ih hch'
        rw [hdt] at this
        exact this

theorem mem_dropTrail : ∀ (l : List Char) (c : Char), c ∈ dropTrail l → c ∈ l := by
  intro l
  induction l with
  | nil => intro c hc; simp [dropTrail] at hc
  | cons a as ih =>
    intro c hc
    cases hdt : dropTrail as with
    | nil =>
      rw [dropTrail, hdt] at hc
      by_cases hsa : isSpaceChar a = true
      · rw [if_pos hsa] at hc; simp at hc
      · rw [if_neg hsa] at hc
        simp only [List.mem_singleton] at hc
        subst hc; simp
    | cons r rs =>
      rw [dropTrail, hdt] at hc
      rcases List.mem_cons.mp hc with hc | hc
      · subst hc; simp
      · rw [← hdt] at hc
        exact List.mem_cons_of_mem a (ih c hc)

theorem head_dropWhile_space :
    ∀ (l : List Char), ∀ c ∈ (l.dropWhile isSpaceChar).head?, isSpaceChar c = false := by
  intro l
  induction l with
  | nil => intro c hc; simp at hc
  | cons a as ih =>
    intro c hc
    cases hsa : isSpaceChar a with
    | true =>
      rw [List.dropWhile_cons_of_pos (by simp [hsa])] at hc
      exact ih c hc
    | false =>
      rw [List.dropWhile_cons_of_neg (by simp [hsa])] at hc
      simp only [List.head?_cons, Option.mem_def, Option.some.injEq] at hc
      subst hc; exact hsa

theorem head_dropTrail :
    ∀ (l : List Char), (∀ c ∈ l.head?, isSpaceChar c = false) →
      ∀ c ∈ (dropTrail l).head?, isSpaceChar c = false := by
  intro l hl c hc
  cases hdt : dropTrail l with
  | nil => rw [hdt] at hc; simp at hc
  | cons r rs =>
    rw [hdt] at hc
    simp only [List.head?_cons, Option.mem_def, Option.some.injEq] at hc
    subst hc
    exact hl r (by rw [dropTrail_head l r rs hdt]; rfl)

theorem dropWhile_eq_self_of_head :
    ∀ (l : List Char), (∀ c ∈ l.head?, isSpaceChar c = false) →
      l.dropWhile isSpaceChar = l := by
  intro l hl
  cases l with
  | nil => rfl
  | cons a as =>
    have := hl a (by simp)
    rw [List.dropWhile_cons_of_neg (by simp [this])]

theorem pyStripChars_head :
    ∀ (s : List Char), ∀ c ∈ (pyStripChars s).head?, isSpaceChar c = false := by
  intro s
  exact head_dropTrail _ (head_dropWhile_space s)

theorem pyStripChars_idem (s : List Char) :
    pyStripChars (pyStripChars s) = pyStripChars s := by
  rw [show pyStripChars (pyStripChars s) =
    dropTrail ((pyStripChars s).dropWhile isSpaceChar) from rfl]
  rw [dropWhile_eq_self_of_head _ (pyStripChars_head s)]
  rw [pyStripChars, dropTrail_idem]

theorem collapseWS_pyStripChars_collapseWS (y : List Char) :
    collapseWS (pyStripChars (collapseWS y)) = pyStripChars (collapseWS y) := by
  apply (collapseGo_eq_self _ ?_ ?_).1
  · intro c hc hsc
    have hc' : c ∈ collapseGo false y := by
      have h1 := mem_dropTrail _ c hc
      exact List.Sublist.mem h1 (List.dropWhile_sublist _)
    exact collapseGo_mem y false c hc' hsc
  · exact chain'_dropTrail _ (chain'_dropWhile _ (collapseGo_chain y false))

theorem tokens_substPhrase (p s : List Char) (hp : p ≠ []) (hw : wordOnly p = true) :
    tokens (substPhrase p s) = filterNe (p.map pyLower) (tokens s) :=
  (substGo_tokens p hp hw s.length s le_rfl none).1 (Or.inl rfl)

theorem hasMatch_mem_tokens (p s : List Char) (hp : p ≠ []) (hw : wordOnly p = true)
    (hm : hasMatch p s = true) : p.map pyLower ∈ tokens s :=
  (hasMatchGo_mem_tokens p hp hw s none).1 (Or.inl rfl) hm

theorem substPhrase_eq_self (p s : List Char) (hm : hasMatch p s = false) :
    substPhrase p s = s :=
  substGo_eq_self p s.length s le_rfl none hm

theorem tokens_cleanOne (s q : List Char) (hq : q ≠ []) (hw : wordOnly q = true) :
    tokens (cleanOne s q) = filterNe (q.map pyLower) (tokens s) := by
  rw [cleanOne, if_neg hq]
  exact tokens_substPhrase q s hq hw

theorem tokens_foldl_subset :
    ∀ (ps : List (List Char)) (s : List Char),
      (∀ q ∈ ps, q ≠ [] ∧ wordOnly q = true) →
      ∀ t, t ∈ tokens (ps.foldl cleanOne s) → t ∈ tokens s := by
  intro ps
  induction ps with
  | nil => intro s _ t ht; exact ht
  | cons q ps' ih =>
    intro s hps t ht
    rw [List.foldl_cons] at ht
    have hq := hps q (by simp)
    have ht' := ih (cleanOne s q) (fun r hr => hps r (by simp [hr])) t ht
    rw [tokens_cleanOne s q hq.1 hq.2] at ht'
    simp only [filterNe] at ht'
    exact List.mem_of_mem_filter ht'

theorem foldl_cleanOne_no_token :
    ∀ (ps : List (List Char)) (s : List Char),
      (∀ q ∈ ps, q ≠ [] ∧ wordOnly q = true) →
      ∀ q ∈ ps, q.map pyLower ∉ tokens (ps.foldl cleanOne s) := by
  intro ps
  induction ps with
  | nil => intro s _ q hq; simp at hq
  | cons r ps' ih =>
    intro s hps q hq hmem
    rw [List.foldl_cons] at hmem
    rcases List.mem_cons.mp hq with hq | hq
    · subst hq
      have hr := hps q (by simp)
      have hsub := tokens_foldl_subset ps' (cleanOne s q)
        (fun r' hr' => hps r' (by simp [hr'])) _ hmem
      rw [tokens_cleanOne s q hr.1 hr.2] at hsub
      simp [filterNe, List.mem_filter] at hsub
    · exact ih (cleanOne s r) (fun r' hr' => hps r' (by simp [hr'])) q hq hmem

theorem cleanTextList_no_match (t : List Char) (ps : List (List Char))
    (hps : ∀ q ∈ ps, q ≠ [] ∧ wordOnly q = true) :
    ∀ q ∈ ps, hasMatch q (cleanTextList t ps) = false := by
  intro q hq
  by_cases ht : t = []
  · subst ht
    rw [cleanTextList, if_pos rfl]
    rfl
  · rw [cleanTextList, if_neg ht]
    show hasMatch q (pyStripChars (collapseWS (ps.foldl cleanOne t))) = false
    cases hm : hasMatch q (pyStripChars (collapseWS (ps.foldl cleanOne t))) with
    | false => rfl
    | true =>
      exfalso
      have hqq := hps q hq
      have hmem := hasMatch_mem_tokens q _ hqq.1 hqq.2 hm
      rw [show tokens (pyStripChars (collapseWS (ps.foldl cleanOne t))) =
          tokens (ps.foldl cleanOne t) from by
        simp only [tokens]
        rw [tokens_pyStripChars, tokens_collapseWS]] at hmem
      exact foldl_cleanOne_no_token ps t hps q hq hmem

theorem foldl_cleanOne_fixed :
    ∀ (ps : List (List Char)) (out : List Char),
      (∀ q ∈ ps, hasMatch q out = false) → ps.foldl cleanOne out = out := by
  intro ps
  induction ps with
  | nil => intro out _; rfl
  | cons q ps' ih =>
    intro out h
    rw [List.foldl_cons]
    have h1 : cleanOne out q = out := by
      rw [cleanOne]
      split
      · rfl
      · exact substPhrase_eq_self q out (h q (by simp))
    rw [h1]
    exact ih out (fun r hr => h r (by simp [hr]))

theorem cleanTextList_fixed (out : List Char) (ps : List (List Char))
    (hnm : ∀ q ∈ ps, hasMatch q out = false)
    (hshape : ∃ y, out = pyStripChars (collapseWS y)) :
    cleanTextList out ps = out := by
  by_cases hoe : out = []
  · subst hoe; rw [cleanTextList]; simp
  · rw [cleanTextList, if_neg hoe]
    show pyStripChars (collapseWS (ps.foldl cleanOne out)) = out
    rw [foldl_cleanOne_fixed ps out hnm]
    obtain ⟨y, hy⟩ := hshape
    rw [hy, collapseWS_pyStripChars_collapseWS, pyStripChars_idem]

theorem cleanTextList_idem (t : List Char) (ps : List (List Char))
    (hps : ∀ q ∈ ps, q ≠ [] ∧ wordOnly q = true) :
    cleanTextList (cleanTextList t ps) ps = cleanTextList t ps := by
  by_cases ht : t = []
  · subst ht
    have hnil : cleanTextList ([] : List Char) ps = [] := by rw [cleanTextList]; simp
    rw [hnil, hnil]
  · exact cleanTextList_fixed (cleanTextList t ps) ps (cleanTextList_no_match t ps hps)
      ⟨ps.foldl cleanOne t, by rw [cleanTextList, if_neg ht]⟩

theorem toList_ne_nil {s : String} (h : s ≠ "") : s.toList ≠ [] := by
  intro hl
  apply h
  cases s with
  | mk data =>
    simp only [String.toList] at hl
    rw [show ("" : String) = String.mk [] from rfl]
    exact congrArg String.mk hl

theorem phrases_ok_toList {phrases : List String}
    (hph : ∀ q ∈ phrases, q ≠ "" ∧ q.toList.all isWordChar = true) :
    ∀ r ∈ phrases.map String.toList, r ≠ [] ∧ wordOnly r = true := by
  intro r hr
  rw [List.mem_map] at hr
  obtain ⟨q', hq', hr'⟩ := hr
  subst hr'
  have h := hph q' hq'
  exact ⟨toList_ne_nil h.1, h.2⟩

/-- C1 counterexample: the phrase list `["a b", "x"]` is served longest
first, yet cleaning `"a x b"` with it yields `"a b"`, which still contains
the served phrase `"a b"` as a case-insensitive whole-word match — the
removal of `"x"` re-forms the longer phrase after whitespace collapsing. -/
theorem clean_text_leaves_served_phrase :
    sortedLongestFirst ["a b", "x"] = true ∧
    voiceapi.clean_text_remove_intent_phrases "a x b" ["a b", "x"] = "a b" ∧
    hasMatchStr "a b"
      (voiceapi.clean_text_remove_intent_phrases "a x b" ["a b", "x"]) = true := by
  refine ⟨by decide, by decide, by decide⟩

/-- C1 (amended): for every input text and every phrase list served longest
first whose phrases are non-empty and consist only of word characters, the
output of `clean_text_remove_intent_phrases` contains no phrase of the list
as a case-insensitive whole-word-boundary match. -/
theorem clean_text_no_whole_word_phrase_amended (text : String) (phrases : List String)
    (_hsorted : sortedLongestFirst phrases = true)
    (hph : ∀ q ∈ phrases, q ≠ "" ∧ q.toList.all isWordChar = true) :
    ∀ q ∈ phrases,
      hasMatchStr q (voiceapi.clean_text_remove_intent_phrases text phrases) = false := by
  intro q hq
  show hasMatch q.toList
    (String.mk (cleanTextList text.toList (phrases.map String.toList))).toList = false
  exact cleanTextList_no_match text.toList (phrases.map String.toList)
    (phrases_ok_toList hph) q.toList (List.mem_map_of_mem String.toList hq)

theorem clean_text_no_whole_word_phrase_amended_witness :
    hasMatchStr "please"
      (voiceapi.clean_text_remove_intent_phrases "please find shoes" ["please"]) = false :=
  clean_text_no_whole_word_phrase_amended "please find shoes" ["please"]
    (by decide) (by decide) "please" (by decide)

/-- C2 counterexample: with the longest-first list `["a b", "x"]`, cleaning
`"a x b"` yields `"a b"`, and cleaning that output again removes the
re-formed phrase `"a b"`, so a second pass is not a no-op. -/
theorem clean_text_not_idempotent :
    sortedLongestFirst ["a b", "x"] = true ∧
    voiceapi.clean_text_remove_intent_phrases "a x b" ["a b", "x"] = "a b" ∧
    voiceapi.clean_text_remove_intent_phrases
        (voiceapi.clean_text_remove_intent_phrases "a x b" ["a b", "x"]) ["a b", "x"] = "" ∧
    (("" : String) == "a b") = false := by
  refine ⟨by decide, by decide, by decide, by decide⟩

/-- C2 (amended): `clean_text_remove_intent_phrases` is idempotent on every
phrase list served longest first whose phrases are non-empty and consist
only of word characters. -/
theorem clean_text_idempotent_amended (text : String) (phrases : List String)
    (_hsorted : sortedLongestFirst phrases = true)
    (hph : ∀ q ∈ phrases, q ≠ "" ∧ q.toList.all isWordChar = true) :
    voiceapi.clean_text_remove_intent_phrases
        (voiceapi.clean_text_remove_intent_phrases text phrases) phrases =
      voiceapi.clean_text_remove_intent_phrases text phrases :=
  congrArg String.mk
    (cleanTextList_idem text.toList (phrases.map String.toList) (phrases_ok_toList hph))

theorem clean_text_idempotent_amended_witness :
    voiceapi.clean_text_remove_intent_phrases
        (voiceapi.clean_text_remove_intent_phrases "please find shoes" ["find"]) ["find"] =
      voiceapi.clean_text_remove_intent_phrases "please find shoes" ["find"] :=
  clean_text_idempotent_amended "please find shoes" ["find"] (by decide) (by decide)

/-- C3: cleaning `"please turn on the light"` with the phrase set
consisting of `"turn on"` and `"please"` yields `"the light"` in both
orders, and the result equals the one obtained with the phrases pre-sorted
by descending length. -/
theorem clean_example_longest_first_order :
    voiceapi.clean_text_remove_intent_phrases "please turn on the light"
        ["turn on", "please"] = "the light" ∧
    voiceapi.clean_text_remove_intent_phrases "please turn on the light"
        ["please", "turn on"] = "the light" ∧
    sortLongest ["please", "turn on"] = ["turn on", "please"] ∧
    voiceapi.clean_text_remove_intent_phrases "please turn on the light"
        (sortLongest ["please", "turn on"]) = "the light" := by
  refine ⟨by decide, by decide, by decide, by decide⟩

/-- C10: the three copies of `clean_text_remove_intent_phrases` in
`speech.py`, `voice.py` and `voiceapi.py` are extensionally equal. -/
theorem clean_text_three_copies_equal :
    ∀ (text : String) (intent_phrases : List String),
      speech.clean_text_remove_intent_phrases text intent_phrases =
          voice.clean_text_remove_intent_phrases text intent_phrases ∧
        voice.clean_text_remove_intent_phrases text intent_phrases =
          voiceapi.clean_text_remove_intent_phrases text intent_phrases :=
  fun _ _ => ⟨rfl, rfl⟩

theorem orderedInsert_filter_length (a : String) (n : Nat) :
    ∀ (l : List String),
      (List.orderedInsert (fun x y => y.length ≤ x.length) a l).filter
          (fun s => s.length == n) =
        (a :: l).filter (fun s => s.length == n) := by
  intro l
  induction l with
  | nil => rfl
  | cons b m ih =>
    rw [List.orderedInsert]
    by_cases hr : b.length ≤ a.length
    · rw [if_pos hr]
    · rw [if_neg hr]
      have hab : a.length < b.length := Nat.lt_of_not_le hr
      by_cases hb : b.length = n
      · have ha : (a.length == n) = false := by
          rw [beq_eq_false_iff_ne]
          omega
        simp [List.filter_cons, hb, ha, ih]
      · have hb' : (b.length == n) = false := by
          rw [beq_eq_false_iff_ne]
          exact hb
        simp [List.filter_cons, hb', ih]

theorem sortLongest_filter_length (n : Nat) :
    ∀ (l : List String),
      (sortLongest l).filter (fun s => s.length == n) = l.filter (fun s => s.length == n) := by
  intro l
  induction l with
  | nil => rfl
  | cons a l ih =>
    simp only [sortLongest] at ih ⊢
    rw [List.insertionSort]
    rw [orderedInsert_filter_length a n (List.insertionSort _ l)]
    rw [List.filter_cons, List.filter_cons, ih]

/-- C4: the phrase sequence produced by `load_intent_phrases` is exactly the
stored non-empty trimmed values (a permutation of them), sorted by
descending length, with phrases of equal length kept in their original
storage order (the filter by each length is preserved verbatim, which
together with sortedness characterises the stable descending sort). -/
theorem load_intent_phrases_spec (search_keywords : List IntentPhrase) :
    List.Perm (voiceapi.load_intent_phrases search_keywords)
      ((search_keywords.filter (fun item => decide (item.value ≠ "") &&
          decide (pyStripStr item.value ≠ ""))).map (fun item => pyStripStr item.value)) ∧
    List.Pairwise (fun a b : String => b.length ≤ a.length)
      (voiceapi.load_intent_phrases search_keywords) ∧
    ∀ n : Nat,
      (voiceapi.load_intent_phrases search_keywords).filter (fun s => s.length == n) =
        ((search_keywords.filter (fun item => decide (item.value ≠ "") &&
            decide (pyStripStr item.value ≠ ""))).map
          (fun item => pyStripStr item.value)).filter (fun s => s.length == n) := by
  refine ⟨?_, ?_, ?_⟩
  · exact List.perm_insertionSort _ _
  · exact List.sorted_insertionSort _ _
  · intro n
    exact sortLongest_filter_length n _

theorem foldl_max_init (xs : List IntentPhrase) :
    ∀ (a : Int), a ≤ xs.foldl (fun m p => max m p.id) a := by
  induction xs with
  | nil => intro a; exact le_refl a
  | cons x xs ih =>
    intro a
    exact le_trans (le_max_left a x.id) (ih (max a x.id))

theorem foldl_max_mem (xs : List IntentPhrase) :
    ∀ (a : Int) (e : IntentPhrase), e ∈ xs →
      e.id ≤ xs.foldl (fun m p => max m p.id) a := by
  induction xs with
  | nil => intro a e he; simp at he
  | cons x xs ih =>
    intro a e he
    rcases List.mem_cons.mp he with he | he
    · subst he
      exact le_trans (le_max_right a e.id) (foldl_max_init xs (max a e.id))
    · exact ih (max a x.id) e he

theorem foldl_max_le (xs : List IntentPhrase) :
    ∀ (a b : Int), a ≤ b → (∀ e ∈ xs, e.id ≤ b) →
      xs.foldl (fun m p => max m p.id) a ≤ b := by
  induction xs with
  | nil => intro a b hab _; exact hab
  | cons x xs ih =>
    intro a b hab hall
    exact ih (max a x.id) b (max_le hab (hall x (by simp)))
      (fun e he => hall e (by simp [he]))

theorem id_lt_get_next (store : List IntentPhrase) (e : IntentPhrase) (he : e ∈ store) :
    e.id < get_next_id store := by
  cases store with
  | nil => simp at he
  | cons x xs =>
    rw [get_next_id]
    have hb : e.id ≤ xs.foldl (fun m p => max m p.id) x.id := by
      rcases List.mem_cons.mp he with he | he
      · subst he; exact foldl_max_init xs e.id
      · exact foldl_max_mem xs x.id e he
    omega

theorem add_ok_eq {store : List IntentPhrase} {v : String} {np : IntentPhrase}
    {store' : List IntentPhrase}
    (h : add_intent_phrase store v = (AddOutcome.ok np, store')) :
    np = ⟨get_next_id store, pyStripStr v⟩ ∧ store' = store ++ [np] ∧
    pyStripStr v ≠ "" ∧
    (store.map (fun e => lowerStr e.value)).contains (lowerStr (pyStripStr v)) = false := by
  simp only [add_intent_phrase] at h
  by_cases h1 : pyStripStr v = ""
  · rw [if_pos h1] at h; simp at h
  · rw [if_neg h1] at h
    by_cases h2 : ((store.map fun e => lowerStr e.value).contains (lowerStr (pyStripStr v))) = true
    · rw [if_pos h2] at h; simp at h
    · rw [if_neg h2] at h
      simp only [Prod.mk.injEq, AddOutcome.ok.injEq] at h
      obtain ⟨hnp, hs⟩ := h
      subst hnp
      exact ⟨rfl, hs.symm, h1, by simpa using h2⟩

theorem add_ok_inv (store : List IntentPhrase) (v : String) (np : IntentPhrase)
    (store' : List IntentPhrase) (hinv : StoreInvariant store)
    (h : add_intent_phrase store v = (AddOutcome.ok np, store')) :
    StoreInvariant store' := by
  obtain ⟨hnp, hs', _, h2⟩ := add_ok_eq h
  subst hs'
  constructor
  · rw [List.map_append, List.nodup_append]
    refine ⟨hinv.1, List.nodup_singleton _, ?_⟩
    intro a ha hb
    simp only [List.map_cons, List.map_nil, List.mem_singleton] at hb
    subst hb
    rw [List.mem_map] at ha
    obtain ⟨e, he, hei⟩ := ha
    have := id_lt_get_next store e he
    rw [hei, hnp] at this
    exact absurd this (by simp)
  · rw [List.map_append, List.nodup_append]
    refine ⟨hinv.2, List.nodup_singleton _, ?_⟩
    intro a ha hb
    simp only [List.map_cons, List.map_nil, List.mem_singleton] at hb
    subst hb
    simp only [List.contains_eq_any_beq] at h2
    rw [hnp] at ha
    simp at h2 ha
    obtain ⟨e, he, hei⟩ := ha
    exact h2 e he hei.symm

theorem delete_ok_inv (store : List IntentPhrase) (pid : Int)
    (store' : List IntentPhrase) (hinv : StoreInvariant store)
    (h : delete_intent_phrase store pid = (DeleteOutcome.ok, store')) :
    StoreInvariant store' := by
  simp only [delete_intent_phrase] at h
  by_cases hlen : (store.filter fun e => !(e.id == pid)).length = store.length
  · rw [if_pos hlen] at h; simp at h
  · rw [if_neg hlen] at h
    simp only [Prod.mk.injEq] at h
    obtain ⟨-, h2⟩ := h
    subst h2
    constructor
    · exact List.Nodup.sublist (List.Sublist.map _ (List.filter_sublist store)) hinv.1
    · exact List.Nodup.sublist (List.Sublist.map _ (List.filter_sublist store)) hinv.2

theorem updateFirstValue_map_id :
    ∀ (store : List IntentPhrase) (pid : Int) (v : String),
      (updateFirstValue store pid v).map (fun e => e.id) = store.map (fun e => e.id) := by
  intro store pid v
  induction store with
  | nil => rfl
  | cons e es ih =>
    rw [updateFirstValue]
    by_cases h : e.id = pid
    · rw [if_pos h]
      simp
    · rw [if_neg h]
      simp [ih]

theorem update_map_id (store : List IntentPhrase) (pid : Int) (v : String) :
    ((update_intent_phrase store pid v).2).map (fun e => e.id) =
      store.map (fun e => e.id) := by
  simp only [update_intent_phrase]
  by_cases h1 : pyStripStr v = ""
  · rw [if_pos h1]
  · rw [if_neg h1]
    by_cases h2 : store.any (fun e => e.id == pid) = true
    · rw [if_pos h2]
      exact updateFirstValue_map_id store pid (pyStripStr v)
    · rw [if_neg h2]

/-- C5 counterexample: the store [(1, "a"), (2, "b")] satisfies both
uniqueness invariants, `update(2, "A")` succeeds, and the resulting store
holds two entries whose values coincide case-insensitively — the update
endpoint performs no duplicate check. -/
theorem update_breaks_value_uniqueness :
    StoreInvariant [⟨1, "a"⟩, ⟨2, "b"⟩] ∧
    update_intent_phrase [⟨1, "a"⟩, ⟨2, "b"⟩] 2 "A" =
      (UpdateOutcome.ok, [⟨1, "a"⟩, ⟨2, "A"⟩]) ∧
    decide ((([⟨1, "a"⟩, ⟨2, "A"⟩] : List IntentPhrase).map
      (fun e => lowerStr e.value)).Nodup) = false := by
  exact ⟨⟨by decide, by decide⟩, by decide, by decide⟩

/-- C5 (amended): a successful add or delete preserves both store
invariants (no duplicate ids, no case-insensitive duplicate values); update
preserves id-uniqueness but performs no value-duplicate check, so it may
break value-uniqueness. -/
theorem store_ops_preserve_invariants :
    (∀ (store : List IntentPhrase) (v : String) (np : IntentPhrase)
        (store' : List IntentPhrase), StoreInvariant store →
      add_intent_phrase store v = (AddOutcome.ok np, store') → StoreInvariant store') ∧
    (∀ (store : List IntentPhrase) (pid : Int) (store' : List IntentPhrase),
      StoreInvariant store →
      delete_intent_phrase store pid = (DeleteOutcome.ok, store') → StoreInvariant store') ∧
    (∀ (store : List IntentPhrase) (pid : Int) (v : String), StoreInvariant store →
      (((update_intent_phrase store pid v).2).map (fun e => e.id)).Nodup) := by
  refine ⟨?_, ?_, ?_⟩
  · intro store v np store' hinv h
    exact add_ok_inv store v np store' hinv h
  · intro store pid store' hinv h
    exact delete_ok_inv store pid store' hinv h
  · intro store pid v hinv
    rw [update_map_id]
    exact hinv.1

theorem store_ops_preserve_invariants_witness :
    StoreInvariant [⟨1, "a"⟩, ⟨2, "bb"⟩] ∧
    StoreInvariant [⟨1, "a"⟩] ∧
    (((update_intent_phrase [⟨1, "a"⟩, ⟨2, "x"⟩] 2 "xy").2).map (fun e => e.id)).Nodup := by
  refine ⟨?_, ?_, ?_⟩
  · exact store_ops_preserve_invariants.1 [⟨1, "a"⟩] "bb" ⟨2, "bb"⟩ [⟨1, "a"⟩, ⟨2, "bb"⟩]
      ⟨by decide, by decide⟩ (by decide)
  · exact store_ops_preserve_invariants.2.1 [⟨1, "a"⟩, ⟨2, "b"⟩] 2 [⟨1, "a"⟩]
      ⟨by decide, by decide⟩ (by decide)
  · exact store_ops_preserve_invariants.2.2 [⟨1, "a"⟩, ⟨2, "x"⟩] 2 "xy"
      ⟨by decide, by decide⟩

theorem get_next_id_eq (store : List IntentPhrase) :
    get_next_id store = maxIdDefaultZero store + 1 := by
  cases store with
  | nil => decide
  | cons x xs => rfl

theorem get_next_id_of_range (s : List IntentPhrase)
    (hids : s.map (fun e => e.id) = (List.range s.length).map (fun k : Nat => (k : Int) + 1)) :
    get_next_id s = (s.length : Int) + 1 := by
  cases s with
  | nil => decide
  | cons x xs =>
    rw [get_next_id]
    have hup : ∀ e ∈ x :: xs, e.id ≤ ((x :: xs).length : Int) := by
      intro e he
      have hmem : e.id ∈ (x :: xs).map (fun e => e.id) :=
        List.mem_map_of_mem _ he
      rw [hids, List.mem_map] at hmem
      obtain ⟨k, hk, hke⟩ := hmem
      rw [List.mem_range] at hk
      omega
    have hle : xs.foldl (fun m p => max m p.id) x.id ≤ ((x :: xs).length : Int) :=
      foldl_max_le xs x.id _ (hup x (by simp)) (fun e he => hup e (by simp [he]))
    have hmem_n : (((x :: xs).length : Int)) ∈ (x :: xs).map (fun e => e.id) := by
      rw [hids, List.mem_map]
      refine ⟨(x :: xs).length - 1, ?_, ?_⟩
      · rw [List.mem_range]; simp
      · simp [List.length_cons]
    rw [List.mem_map] at hmem_n
    obtain ⟨e, he, hei⟩ := hmem_n
    have hge : ((x :: xs).length : Int) ≤ xs.foldl (fun m p => max m p.id) x.id := by
      rw [← hei]
      rcases List.mem_cons.mp he with he | he
      · subst he; exact foldl_max_init xs e.id
      · exact foldl_max_mem xs x.id e he
    omega

theorem addAll_ids :
    ∀ (vs : List String) (s st : List IntentPhrase),
      s.map (fun e => e.id) = (List.range s.length).map (fun k : Nat => (k : Int) + 1) →
      addAll s vs = some st →
      st.map (fun e => e.id) = (List.range st.length).map (fun k : Nat => (k : Int) + 1) := by
  intro vs
  induction vs with
  | nil =>
    intro s st hids h
    simp only [addAll, Option.some.injEq] at h
    subst h
    exact hids
  | cons v vs ih =>
    intro s st hids h
    simp only [addAll] at h
    cases hadd : add_intent_phrase s v with
    | mk out s' =>
      rw [hadd] at h
      cases out with
      | invalid => simp at h
      | duplicate => simp at h
      | ok np =>
        obtain ⟨hnp, hs', -, -⟩ := add_ok_eq hadd
        refine ih s' st ?_ h
        subst hs'
        rw [List.map_append, hids]
        rw [show (s ++ [np]).length = s.length + 1 by simp]
        rw [List.range_succ, List.map_append]
        have hgn : get_next_id s = (s.length : Int) + 1 := get_next_id_of_range s hids
        simp [hnp, hgn]

/-- C6: a successful add assigns the id `max(existing ids, default 0) + 1`,
and consecutive successful adds to an initially empty store therefore
assign the ids 1, 2, ..., n in order (the n-th added phrase has id n). -/
theorem add_assigns_max_plus_one :
    (∀ (store : List IntentPhrase) (v : String) (np : IntentPhrase)
        (store' : List IntentPhrase),
      add_intent_phrase store v = (AddOutcome.ok np, store') →
        np.id = maxIdDefaultZero store + 1) ∧
    (∀ (vs : List String) (st : List IntentPhrase), addAll [] vs = some st →
      st.map (fun e => e.id) = (List.range st.length).map (fun k : Nat => (k : Int) + 1)) := by
  constructor
  · intro store v np store' h
    obtain ⟨hnp, -, -, -⟩ := add_ok_eq h
    rw [hnp]
    exact get_next_id_eq store
  · intro vs st h
    exact addAll_ids vs [] st rfl h

theorem add_assigns_max_plus_one_witness :
    (⟨1, "x"⟩ : IntentPhrase).id = maxIdDefaultZero [] + 1 ∧
    ([⟨1, "alpha"⟩, ⟨2, "be"⟩] : List IntentPhrase).map (fun e => e.id) =
      (List.range ([⟨1, "alpha"⟩, ⟨2, "be"⟩] : List IntentPhrase).length).map
        (fun k : Nat => (k : Int) + 1) := by
  constructor
  · exact add_assigns_max_plus_one.1 [] "x" ⟨1, "x"⟩ [⟨1, "x"⟩] (by decide)
  · exact add_assigns_max_plus_one.2 ["alpha", "be"] [⟨1, "alpha"⟩, ⟨2, "be"⟩] (by decide)

theorem contains_lower_iff (store : List IntentPhrase) (p : String) :
    ((store.map (fun e => lowerStr e.value)).contains (lowerStr p) = true) ↔
      ∃ e ∈ store, lowerStr e.value = lowerStr p := by
  constructor
  · intro h
    simp only [List.contains_eq_any_beq] at h
    simp at h
    obtain ⟨e, he, hei⟩ := h
    exact ⟨e, he, hei⟩
  · rintro ⟨e, he, hei⟩
    simp only [List.contains_eq_any_beq]
    simp
    exact ⟨e, he, hei⟩

/-- C7: add trims the input; it fails with the invalid outcome exactly when
the trimmed value is empty, fails with the duplicate outcome exactly when
the trimmed value is non-empty and a case-insensitive match already exists,
and otherwise appends the new entry (with the next id and the trimmed
value) and returns it; on either failure the stored phrase set is
unchanged. -/
theorem add_intent_phrase_spec (store : List IntentPhrase) (v : String) :
    ((add_intent_phrase store v).1 = AddOutcome.invalid ↔ pyStripStr v = "") ∧
    ((add_intent_phrase store v).1 = AddOutcome.duplicate ↔
      (pyStripStr v ≠ "" ∧ ∃ e ∈ store, lowerStr e.value = lowerStr (pyStripStr v))) ∧
    (((add_intent_phrase store v).1 = AddOutcome.invalid ∨
        (add_intent_phrase store v).1 = AddOutcome.duplicate) →
      (add_intent_phrase store v).2 = store) ∧
    (pyStripStr v ≠ "" →
      (¬ ∃ e ∈ store, lowerStr e.value = lowerStr (pyStripStr v)) →
      (add_intent_phrase store v).1 =
          AddOutcome.ok ⟨get_next_id store, pyStripStr v⟩ ∧
        (add_intent_phrase store v).2 =
          store ++ [⟨get_next_id store, pyStripStr v⟩]) := by
  have hcont := contains_lower_iff store (pyStripStr v)
  by_cases h1 : pyStripStr v = ""
  · have hadd : add_intent_phrase store v = (AddOutcome.invalid, store) := by
      simp only [add_intent_phrase]
      rw [if_pos h1]
    rw [hadd]
    refine ⟨by simp [h1], by simp [h1], fun _ => rfl, fun hne => absurd h1 hne⟩
  · by_cases h2 :
      ((store.map fun e => lowerStr e.value).contains (lowerStr (pyStripStr v))) = true
    · have hadd : add_intent_phrase store v = (AddOutcome.duplicate, store) := by
        simp only [add_intent_phrase]
        rw [if_neg h1, if_pos h2]
      rw [hadd]
      refine ⟨by simp [h1], ?_, fun _ => rfl, ?_⟩
      · exact ⟨fun _ => ⟨h1, hcont.mp h2⟩, fun _ => rfl⟩
      · intro _ hnex
        exact absurd (hcont.mp h2) hnex
    · have hadd : add_intent_phrase store v =
          (AddOutcome.ok ⟨get_next_id store, pyStripStr v⟩,
            store ++ [⟨get_next_id store, pyStripStr v⟩]) := by
        simp only [add_intent_phrase]
        rw [if_neg h1, if_neg h2]
      rw [hadd]
      refine ⟨by simp [h1], ?_, by rintro (h | h) <;> simp at h, fun _ _ => ⟨rfl, rfl⟩⟩
      constructor
      · intro h; simp at h
      · rintro ⟨-, hex⟩
        exact absurd (hcont.mpr hex) h2

theorem add_intent_phrase_spec_witness :
    (add_intent_phrase [⟨1, "Hello"⟩] " hello ").1 = AddOutcome.duplicate ∧
    (add_intent_phrase [⟨1, "Hello"⟩] "  ").1 = AddOutcome.invalid := by
  constructor
  · exact (add_intent_phrase_spec [⟨1, "Hello"⟩] " hello ").2.1.mpr
      ⟨by decide, ⟨1, "Hello"⟩, by decide, by decide⟩
  · exact (add_intent_phrase_spec [⟨1, "Hello"⟩] "  ").1.mpr (by decide)

/-- C8 counterexample: both halves of the claim fail.  The two runs below
fail with different write errors yet produce the identical bare `None` —
the failure is not surfaced as a distinct, inspectable PersistenceError
value — and, because the destination is opened in truncating `"w"` mode
before `json.dump`, a failure during the dump leaves the file corrupt: the
log that a subsequent load reads back is the empty list, not the last
successfully persisted one-record state. -/
theorem save_transcription_swallows_error :
    save_transcription (LogFile.wellFormed [⟨"id0", "t0", "a0.wav", "raw0", "clean0"⟩])
        "id1" "t1" "a.wav" "raw" "clean"
        (Except.error (WriteFailure.dumpFailed "disk full")) = (none, LogFile.corrupt) ∧
    save_transcription (LogFile.wellFormed [⟨"id0", "t0", "a0.wav", "raw0", "clean0"⟩])
        "id1" "t1" "a.wav" "raw" "clean"
        (Except.error (WriteFailure.dumpFailed "permission denied")) =
      (none, LogFile.corrupt) ∧
    (("disk full" : String) == "permission denied") = false ∧
    loadTranscriptions LogFile.corrupt = ([] : List TranscriptionData) ∧
    decide (loadTranscriptions
        (LogFile.wellFormed [⟨"id0", "t0", "a0.wav", "raw0", "clean0"⟩]) =
      ([] : List TranscriptionData)) = false := by
  refine ⟨rfl, rfl, by decide, rfl, by decide⟩

/-- C8 (amended): when the durable write fails, `save_transcription`
returns `none` — a failure indication distinguishable from success but
carrying no error detail (the exception text is only printed) — and the
persisted log is not in general preserved: only a failure of the open
itself leaves the previous file intact, while a failure after the
truncating open leaves the log corrupt, which a subsequent load reads as
the empty list; on success the new record is returned and the well-formed
appended list is persisted. -/
theorem save_transcription_spec (file : LogFile)
    (transcription_id timestamp audio_file_path raw_text cleaned_text : String) :
    (∀ msg : String,
      save_transcription file transcription_id timestamp audio_file_path
          raw_text cleaned_text (Except.error (WriteFailure.openFailed msg)) =
        (none, file)) ∧
    (∀ msg : String,
      save_transcription file transcription_id timestamp audio_file_path
          raw_text cleaned_text (Except.error (WriteFailure.dumpFailed msg)) =
        (none, LogFile.corrupt)) ∧
    (∀ msg : String,
      loadTranscriptions
        (save_transcription file transcription_id timestamp audio_file_path
          raw_text cleaned_text (Except.error (WriteFailure.dumpFailed msg))).2 = []) ∧
    (save_transcription file transcription_id timestamp audio_file_path
        raw_text cleaned_text (Except.ok ()) =
      (some ⟨transcription_id, timestamp, audio_file_path, raw_text, cleaned_text⟩,
        LogFile.wellFormed (loadTranscriptions file ++
          [⟨transcription_id, timestamp, audio_file_path, raw_text, cleaned_text⟩]))) :=
  ⟨fun _ => rfl, fun _ => rfl, fun _ => rfl, rfl⟩

theorem lev_self {α : Type} [DecidableEq α] : ∀ (l : List α), lev l l = 0 := by
  intro l
  induction l with
  | nil => simp [lev]
  | cons x xs ih => simp [lev, ih]

theorem errRate_self {α : Type} [DecidableEq α] (l : List α) : errRate l l = 0 := by
  rw [errRate]
  by_cases h : l = []
  · subst h; simp
  · rw [if_neg (by simp [h])]
    rw [lev_self]
    simp

theorem rhe_intCast (z : Int) : rhe ((z : ℚ)) = z := by
  simp only [rhe]
  rw [show ((z : ℚ)).floor = z from by
    rw [show ((z : ℚ)).floor = ⌊(z : ℚ)⌋ from rfl]
    exact Int.floor_intCast z]
  rw [sub_self]
  norm_num

theorem pyRound_zero (n : Nat) : pyRound n 0 = 0 := by
  rw [pyRound, zero_mul]
  rw [show (0 : ℚ) = ((0 : Int) : ℚ) from by norm_num]
  rw [rhe_intCast]
  norm_num

theorem pyRound_hundred : pyRound 2 100 = 100 := by
  rw [pyRound]
  rw [show (100 * 10 ^ 2 : ℚ) = ((10000 : Int) : ℚ) from by norm_num]
  rw [rhe_intCast]
  norm_num

/-- C9: for every reference text and phrase list, evaluating a hypothesis
equal to the reference yields word_error_rate 0, char_error_rate 0 and
accuracy_percent 100, where the accuracy equals (1 - char_error_rate) * 100. -/
theorem evaluate_self_perfect :
    ∀ (reference : String) (intent_phrases : List String),
      (evaluate_transcription reference reference intent_phrases).word_error_rate = 0 ∧
      (evaluate_transcription reference reference intent_phrases).char_error_rate = 0 ∧
      (evaluate_transcription reference reference intent_phrases).accuracy_percent = 100 ∧
      (evaluate_transcription reference reference intent_phrases).accuracy_percent =
        (1 - (evaluate_transcription reference reference intent_phrases).char_error_rate)
          * 100 := by
  intro reference intent_phrases
  refine ⟨?_, ?_, ?_, ?_⟩
  · simp only [evaluate_transcription]
    rw [errRate_self, pyRound_zero]
  · simp only [evaluate_transcription]
    rw [errRate_self, pyRound_zero]
  · simp only [evaluate_transcription]
    rw [errRate_self]
    norm_num
    exact pyRound_hundred
  · simp only [evaluate_transcription]
    rw [errRate_self, pyRound_zero]
    norm_num
    exact pyRound_hundred
